import Mathlib

/-!
Verification of the ESLint rule `no-unnecessary-optional-chaining-and-coalesce`
against its natural-language specification.

The development shallowly embeds the rule's core (the latest revision in
`src/rules/no-unnecessary-optional-chaining-and-coalesce.ts`):
* `TsType` models the fragment of the TypeScript type classification the rule
  inspects (`Any`, `Unknown`, `Null`, `Undefined`, union types, everything else);
* `Expr` models the ESTree expression nodes the rule visits (member accesses
  with `computed`/`optional` flags, calls, `ChainExpression` wrappers, logical
  expressions, identifiers, literals);
* `printExpr` models `sourceCode.getText` (the source text of a node);
* `replaceFirst` models JavaScript's `String.prototype.replace` with a plain
  string pattern (first occurrence only);
* `isNullish`, `checkIfNeverNullish`, `findInnermostUnnecessaryOptionalChain`,
  `chainVisitor` (the `ChainExpression` visitor), `logicalVisitor` (the
  `LogicalExpression` visitor) and `create` are direct translations of the
  functions with those roles in the source;
* `runPass` models one host traversal of a file's tree, invoking both visitors
  at every node, collecting the reported findings in document order.

The external type checker is modelled as an arbitrary function
`Oracle : Expr → TsType` assigning an inferred type to every expression node.
-/

/-- Model of the fragment of `ts.Type` the rule inspects: the flag tests
`Any`, `Unknown`, `Null`, `Undefined`, `isUnion()` with member types, and
everything else (`other`, carrying a rendered name). -/
inductive TsType where
  | any : TsType
  | unknown : TsType
  | null : TsType
  | undefined : TsType
  | union : List TsType → TsType
  | other : String → TsType

mutual
/-- Translation of the source's `isNullish(type: ts.Type)`: `any`/`unknown`
are treated as potentially nullish, `null`/`undefined` are nullish, a union is
nullish iff some member is, everything else is not. -/
def isNullish : TsType → Bool
  | .any => true
  | .unknown => true
  | .null => true
  | .undefined => true
  | .union ts => anyNullish ts
  | .other _ => false

/-- `type.types.some(t => isNullish(t))` over the member list of a union. -/
def anyNullish : List TsType → Bool
  | [] => false
  | t :: ts => isNullish t || anyNullish ts
end

mutual
/-- Model of `checker.typeToString` (only used for diagnostic message data). -/
def typeToString : TsType → String
  | .any => "any"
  | .unknown => "unknown"
  | .null => "null"
  | .undefined => "undefined"
  | .union ts => typeListToString ts
  | .other s => s

def typeListToString : List TsType → String
  | [] => ""
  | [t] => typeToString t
  | t :: ts => typeToString t ++ " | " ++ typeListToString ts
end

/-- Model of the ESTree expression nodes the rule handles.  `member` carries
the `computed` and `optional` flags, `call` the `optional` flag; `chain` is the
`ChainExpression` wrapper; `logical` carries the operator as written. -/
inductive Expr where
  | ident : String → Expr
  | lit : String → Expr
  | member : Expr → Expr → Bool → Bool → Expr
  | call : Expr → List Expr → Bool → Expr
  | chain : Expr → Expr
  | logical : String → Expr → Expr → Expr

mutual
/-- Model of `sourceCode.getText(node)`: the source text of a node. -/
def printExpr : Expr → String
  | .ident n => n
  | .lit s => s
  | .member o p c opt =>
      if c then printExpr o ++ (if opt then "?.[" else "[") ++ printExpr p ++ "]"
      else printExpr o ++ (if opt then "?." else ".") ++ printExpr p
  | .call f args opt =>
      printExpr f ++ (if opt then "?.(" else "(") ++ printArgs args ++ ")"
  | .chain e => printExpr e
  | .logical op l r => printExpr l ++ " " ++ op ++ " " ++ printExpr r

/-- `args.map(arg => sourceCode.getText(arg)).join(', ')`. -/
def printArgs : List Expr → String
  | [] => ""
  | [a] => printExpr a
  | a :: rest => printExpr a ++ ", " ++ printArgs rest
end

/-- Does `pat` occur at the start of the subject? (Helper for `replaceFirst`.) -/
def startsWithList : List Char → List Char → Bool
  | [], _ => true
  | _ :: _, [] => false
  | p :: ps, c :: cs => p = c && startsWithList ps cs

/-- Replace the first occurrence of `pat` by `rep` in the subject, as
JavaScript's `String.prototype.replace` does with a string pattern; the
subject is returned unchanged when `pat` does not occur. -/
def spliceFirst (pat rep : List Char) : List Char → List Char
  | [] => []
  | c :: cs =>
      if startsWithList pat (c :: cs) then rep ++ (c :: cs).drop pat.length
      else c :: spliceFirst pat rep cs

/-- Model of `s.replace(pat, rep)` for a plain string pattern. -/
def replaceFirst (s pat rep : String) : String :=
  String.mk (spliceFirst pat.data rep.data s.data)

/-- The external type checker: an inferred type for every expression node. -/
abbrev Oracle := Expr → TsType

/-- `checkIfNeverNullish` first unwraps a `ChainExpression` to its inner
expression before asking the checker for a type. -/
def unwrapChain : Expr → Expr
  | .chain e => e
  | e => e

/-- Translation of the source's `checkIfNeverNullish(node)`: unwrap a chain
wrapper, get the type at the node, return whether it is never nullish together
with the rendered type string. -/
def checkIfNeverNullish (o : Oracle) (node : Expr) : Bool × String :=
  let t := o (unwrapChain node)
  (!isNullish t, typeToString t)

/-- A reported diagnostic: the reported node, the message id, the rendered
type interpolated into the message, and the fix replacement text for the
reported node's span (`none` when no fix is attached). -/
structure Finding where
  node : Expr
  messageId : String
  typeString : String
  fix : Option String

/-- Translation of `findInnermostUnnecessaryOptionalChain(memberExpr)`:
if the member is not optional there is nothing to find; if its object is an
optional member, recurse into it and return only what that finds; an object
that is a chain wrapper or an optional call is skipped (handled by its own
visitor code path); otherwise the plain object is queried and the current
member is the finding when the object is never nullish. -/
def findInnermostUnnecessaryOptionalChain (o : Oracle) : Expr → Option (Expr × String)
  | .member obj prop computed true =>
      match obj with
      | .member _ _ _ true => findInnermostUnnecessaryOptionalChain o obj
      | .chain _ => none
      | .call _ _ true => none
      | _ =>
          let ck := checkIfNeverNullish o obj
          if ck.1 then some (.member obj prop computed true, ck.2) else none
  | _ => none

/-- The fix text built for a reported member access: the node's text with the
first `?.[` replaced by `[` when the access is computed, otherwise the first
`?.` replaced by `.`. -/
def memberFixText (m : Expr) : String :=
  match m with
  | .member _ _ true _ => replaceFirst (printExpr m) "?.[" "["
  | _ => replaceFirst (printExpr m) "?." "."

/-- The fix text built for a reported call: the callee's text followed by the
parenthesized comma-joined argument texts. -/
def callFixText (callee : Expr) (args : List Expr) : String :=
  printExpr callee ++ "(" ++ printArgs args ++ ")"

/-- The report built for an innermost unnecessary member link found by the
walker: the member node, the message, its rendered type, the member fix. -/
def reportMember (m : Expr) (ty : String) : Finding :=
  { node := m, messageId := "unnecessaryOptionalChain", typeString := ty,
    fix := some (memberFixText m) }

/-- When the walker found nothing in a chain whose expression is an optional
member, the visitor checks whether the member's object is an optional call
with a never-nullish callee and reports that call (with the rebuilt-call fix). -/
def chainMemberFallback (o : Oracle) (obj : Expr) : List Finding :=
  match obj with
  | .call callee args true =>
      let ck := checkIfNeverNullish o callee
      if ck.1 then
        [{ node := .call callee args true, messageId := "unnecessaryOptionalChain",
           typeString := ck.2, fix := some (callFixText callee args) }]
      else []
  | _ => []

/-- For an optional call, the walker result for its callee when the callee is
an optional member (otherwise the callee's chain is not searched). -/
def calleeChainResult (o : Oracle) (callee : Expr) : Option (Expr × String) :=
  match callee with
  | .member mo mp mc true =>
      findInnermostUnnecessaryOptionalChain o (.member mo mp mc true)
  | _ => none

/-- Translation of the `ChainExpression` visitor of the latest revision:
for a chain whose expression is an optional member, report the innermost
unnecessary link found by the walker; failing that, report the object when it
is an optional call with a never-nullish callee.  For a chain whose expression
is an optional call, search an optional-member callee's chain first and report
its finding; only when none exists check the callee itself and report the call
(on the chain node).  Anything else is not reported. -/
def chainVisitor (o : Oracle) (node : Expr) : List Finding :=
  match node with
  | .chain (.member obj prop computed true) =>
      match findInnermostUnnecessaryOptionalChain o (.member obj prop computed true) with
      | some (m, ty) => [reportMember m ty]
      | none => chainMemberFallback o obj
  | .chain (.call callee args true) =>
      match calleeChainResult o callee with
      | some (m, ty) => [reportMember m ty]
      | none =>
          let ck := checkIfNeverNullish o callee
          if ck.1 then
            [{ node := .chain (.call callee args true), messageId := "unnecessaryOptionalChain",
               typeString := ck.2, fix := some (callFixText callee args) }]
          else []
  | _ => []

/-- Translation of the `LogicalExpression` visitor: only the `??` operator is
handled; the left operand alone is queried, and when it is never nullish the
whole expression is reported with the left operand's text as the fix. -/
def logicalVisitor (o : Oracle) (node : Expr) : List Finding :=
  match node with
  | .logical op l r =>
      if op = "??" then
        let ck := checkIfNeverNullish o l
        if ck.1 then
          [{ node := .logical op l r, messageId := "unnecessaryNullishCoalesce",
             typeString := ck.2, fix := some (printExpr l) }]
        else []
      else []
  | _ => []

/-- Both visitors invoked at one node, as the host does for a node of the
matching kind. -/
def visitNode (o : Oracle) (e : Expr) : List Finding :=
  chainVisitor o e ++ logicalVisitor o e

mutual
/-- One host traversal pass over a tree: every node is visited depth-first and
the findings of both visitors are collected in document order. -/
def runPass (o : Oracle) : Expr → List Finding
  | .ident n => visitNode o (.ident n)
  | .lit s => visitNode o (.lit s)
  | .member obj prop c opt =>
      visitNode o (.member obj prop c opt) ++ runPass o obj ++ runPass o prop
  | .call f args opt =>
      visitNode o (.call f args opt) ++ runPass o f ++ runPassList o args
  | .chain e => visitNode o (.chain e) ++ runPass o e
  | .logical op l r =>
      visitNode o (.logical op l r) ++ runPass o l ++ runPass o r

def runPassList (o : Oracle) : List Expr → List Finding
  | [] => []
  | e :: es => runPass o e ++ runPassList o es
end

/-- The operand protected by the guard of a reported node: the object of an
optional member, the callee of an optional call (also under a chain wrapper). -/
def guardOperand : Expr → Option Expr
  | .member obj _ _ true => some obj
  | .call callee _ true => some callee
  | .chain (.call callee _ true) => some callee
  | _ => none

mutual
/-- The number of syntactic guards (`optional: true` flags) in a tree. -/
def countGuards : Expr → Nat
  | .ident _ => 0
  | .lit _ => 0
  | .member obj prop _ opt => (if opt then 1 else 0) + countGuards obj + countGuards prop
  | .call f args opt => (if opt then 1 else 0) + countGuards f + countGuardsList args
  | .chain e => countGuards e
  | .logical _ l r => countGuards l + countGuards r

def countGuardsList : List Expr → Nat
  | [] => 0
  | e :: es => countGuards e + countGuardsList es
end

/-- The compiler options the rule consults:
`strictNullChecks` and `strict`, each possibly absent. -/
structure CompilerOptions where
  strictNullChecks : Option Bool
  strict : Option Bool
deriving DecidableEq, Repr

/-- `(compilerOptions.strictNullChecks ?? false) || (compilerOptions.strict ?? false)`. -/
def hasStrictNullChecks (c : CompilerOptions) : Bool :=
  c.strictNullChecks.getD false || c.strict.getD false

/-- A diagnostic reported with an explicit location (used by the
configuration-precondition report at the start of the file). -/
structure Diagnostic where
  line : Nat
  column : Nat
  messageId : String
deriving DecidableEq, Repr

/-- Translation of the precondition section of `create`: with no program
available, or with neither `strictNullChecks` nor `strict` enabled, a single
`requiresStrictNullChecks` diagnostic is reported at line 1 column 0 and an
empty visitor object is returned (second component `false`); otherwise no
diagnostic is reported at create time and the visitors are registered
(second component `true`). -/
def create (program : Option CompilerOptions) : List Diagnostic × Bool :=
  match program with
  | none => ([⟨1, 0, "requiresStrictNullChecks"⟩], false)
  | some opts =>
      if !hasStrictNullChecks opts then ([⟨1, 0, "requiresStrictNullChecks"⟩], false)
      else ([], true)

/-! ## Scenario machinery: straight member chains with guarded links -/

/-- Operand shapes the walker treats as plain (queried directly): everything
except an optional member, a chain wrapper, or an optional call. -/
def isPlainOperand : Expr → Bool
  | .member _ _ _ true => false
  | .chain _ => false
  | .call _ _ true => false
  | _ => true

/-- Is the expression an optional (guarded, non-computed or computed) member? -/
def isOptMember : Expr → Bool
  | .member _ _ _ true => true
  | _ => false

/-- Wrap `m` in further guarded non-computed member links, innermost first:
`guardedI m [q1, q2]` is `m?.q1?.q2`. -/
def guardedI (m : Expr) : List String → Expr
  | [] => m
  | q :: qs => guardedI (.member m (.ident q) false true) qs

/-- Extend a plain base by plain non-computed member links, innermost first:
`extendPlain b [q1, q2]` is `b.q1.q2`. -/
def extendPlain (b : Expr) : List String → Expr
  | [] => b
  | q :: qs => extendPlain (.member b (.ident q) false false) qs

/-- The source text of the guarded links that follow the innermost one. -/
def guardTail : List String → String
  | [] => ""
  | q :: qs => "?." ++ q ++ guardTail qs

/-- The chain expression of the scenario: with at least one guard remaining,
a `ChainExpression` wrapping the guarded links over the plain base; with no
guard left, just the plain base (no chain wrapper remains after re-parsing). -/
def scenarioExpr (b : Expr) : List String → Expr
  | [] => b
  | q :: qs => .chain (guardedI (.member b (.ident q) false true) qs)

/-- The type checker answers "never nullish" for the operand of every guard
the scenario will query across its passes: first for the base `b`, then for
each successively extended plain prefix. -/
def oracleOkAlong (o : Oracle) (b : Expr) : List String → Prop
  | [] => True
  | q :: qs =>
      (checkIfNeverNullish o b).1 = true ∧
      oracleOkAlong o (.member b (.ident q) false false) qs

/-- `ConvergesIn o root n limit`: starting from `root`, `n` successive passes
each report exactly one finding whose textual fix (spliced at the reported
node's span, which here sits at the start of the text) re-parses to the next
state, and the final state is `limit`, on which a pass reports nothing. -/
def ConvergesIn (o : Oracle) : Expr → Nat → Expr → Prop
  | root, 0, limit => root = limit ∧ runPass o root = []
  | root, n + 1, limit =>
      ∃ f t rest next,
        runPass o root = [f] ∧ f.fix = some t ∧
        printExpr root = printExpr f.node ++ rest ∧
        printExpr next = t ++ rest ∧
        ConvergesIn o next n limit

/-! ## Basic lemmas -/

theorem anyNullish_eq_any (ts : List TsType) :
    anyNullish ts = ts.any (fun t => isNullish t) := by
  induction ts with
  | nil => rfl
  | cons t ts ih => simp [anyNullish, ih]

theorem checkIfNeverNullish_fst (o : Oracle) (e : Expr) :
    (checkIfNeverNullish o e).1 = !isNullish (o (unwrapChain e)) := rfl

theorem checkIfNeverNullish_snd (o : Oracle) (e : Expr) :
    (checkIfNeverNullish o e).2 = typeToString (o (unwrapChain e)) := rfl

theorem chainVisitor_non_chain (o : Oracle) (e : Expr) (h : ∀ x, e ≠ .chain x) :
    chainVisitor o e = [] := by
  cases e with
  | chain x => exact absurd rfl (h x)
  | ident n => rfl
  | lit s => rfl
  | member a b c d => rfl
  | call a b c => rfl
  | logical a b c => rfl

theorem logicalVisitor_non_logical (o : Oracle) (e : Expr)
    (h : ∀ op l r, e ≠ .logical op l r) : logicalVisitor o e = [] := by
  cases e with
  | logical op l r => exact absurd rfl (h op l r)
  | ident n => rfl
  | lit s => rfl
  | member a b c d => rfl
  | call a b c => rfl
  | chain x => rfl

theorem visitNode_member (o : Oracle) (a b : Expr) (c d : Bool) :
    visitNode o (.member a b c d) = [] := rfl

theorem visitNode_ident (o : Oracle) (n : String) :
    visitNode o (.ident n) = [] := rfl

theorem runPass_ident (o : Oracle) (n : String) : runPass o (.ident n) = [] := rfl

theorem runPass_member (o : Oracle) (a b : Expr) (c d : Bool) :
    runPass o (.member a b c d) = runPass o a ++ runPass o b := by
  rw [runPass, visitNode_member]
  rfl

theorem runPass_member_ident (o : Oracle) (m : Expr) (q : String) (c d : Bool) :
    runPass o (.member m (.ident q) c d) = runPass o m := by
  rw [runPass_member, runPass_ident, List.append_nil]

theorem find_plain (o : Oracle) (obj prop : Expr) (c : Bool)
    (h : isPlainOperand obj = true) :
    findInnermostUnnecessaryOptionalChain o (.member obj prop c true) =
      (if (checkIfNeverNullish o obj).1 then
        some (.member obj prop c true, (checkIfNeverNullish o obj).2)
       else none) := by
  cases obj with
  | ident n => rfl
  | lit s => rfl
  | chain x => simp [isPlainOperand] at h
  | member a b cc opt =>
      cases opt with
      | false => rfl
      | true => simp [isPlainOperand] at h
  | call f args opt =>
      cases opt with
      | false => rfl
      | true => simp [isPlainOperand] at h
  | logical op l r => rfl

theorem find_opt_member (o : Oracle) (o2 p2 : Expr) (c2 : Bool) (prop : Expr) (c : Bool) :
    findInnermostUnnecessaryOptionalChain o (.member (.member o2 p2 c2 true) prop c true) =
      findInnermostUnnecessaryOptionalChain o (.member o2 p2 c2 true) := rfl

/-- Every result the walker returns is an optional member whose (plain) object
the checker judged never nullish, with that check's rendered type string. -/
theorem find_sound (o : Oracle) :
    ∀ (m n : Expr) (ty : String),
      findInnermostUnnecessaryOptionalChain o m = some (n, ty) →
      ∃ obj prop c, n = .member obj prop c true ∧ isPlainOperand obj = true ∧
        (checkIfNeverNullish o obj).1 = true ∧ ty = (checkIfNeverNullish o obj).2
  | .member obj prop c true, n, ty => by
      intro h
      cases obj with
      | member o2 p2 c2 opt =>
          cases opt with
          | true => exact find_sound o (.member o2 p2 c2 true) n ty h
          | false =>
              rw [find_plain o _ prop c (by rfl)] at h
              by_cases hc : (checkIfNeverNullish o (.member o2 p2 c2 false)).1
              · rw [if_pos hc] at h
                obtain ⟨h1, h2⟩ := Prod.mk.injEq .. ▸ Option.some.injEq .. ▸ h
                exact ⟨.member o2 p2 c2 false, prop, c, h1.symm, rfl, hc, h2.symm⟩
              · rw [if_neg hc] at h
                exact absurd h (by simp)
      | chain x => exact absurd h (by simp [findInnermostUnnecessaryOptionalChain])
      | call f args opt =>
          cases opt with
          | true => exact absurd h (by simp [findInnermostUnnecessaryOptionalChain])
          | false =>
              rw [find_plain o _ prop c (by rfl)] at h
              by_cases hc : (checkIfNeverNullish o (.call f args false)).1
              · rw [if_pos hc] at h
                obtain ⟨h1, h2⟩ := Prod.mk.injEq .. ▸ Option.some.injEq .. ▸ h
                exact ⟨.call f args false, prop, c, h1.symm, rfl, hc, h2.symm⟩
              · rw [if_neg hc] at h
                exact absurd h (by simp)
      | ident nm =>
          rw [find_plain o _ prop c (by rfl)] at h
          by_cases hc : (checkIfNeverNullish o (.ident nm)).1
          · rw [if_pos hc] at h
            obtain ⟨h1, h2⟩ := Prod.mk.injEq .. ▸ Option.some.injEq .. ▸ h
            exact ⟨.ident nm, prop, c, h1.symm, rfl, hc, h2.symm⟩
          · rw [if_neg hc] at h
            exact absurd h (by simp)
      | lit s =>
          rw [find_plain o _ prop c (by rfl)] at h
          by_cases hc : (checkIfNeverNullish o (.lit s)).1
          · rw [if_pos hc] at h
            obtain ⟨h1, h2⟩ := Prod.mk.injEq .. ▸ Option.some.injEq .. ▸ h
            exact ⟨.lit s, prop, c, h1.symm, rfl, hc, h2.symm⟩
          · rw [if_neg hc] at h
            exact absurd h (by simp)
      | logical op l r =>
          rw [find_plain o _ prop c (by rfl)] at h
          by_cases hc : (checkIfNeverNullish o (.logical op l r)).1
          · rw [if_pos hc] at h
            obtain ⟨h1, h2⟩ := Prod.mk.injEq .. ▸ Option.some.injEq .. ▸ h
            exact ⟨.logical op l r, prop, c, h1.symm, rfl, hc, h2.symm⟩
          · rw [if_neg hc] at h
            exact absurd h (by simp)
  | .member obj prop c false, n, ty => by
      intro h
      exact absurd h (by simp [findInnermostUnnecessaryOptionalChain])
  | .ident nm, n, ty => by intro h; exact absurd h (by simp [findInnermostUnnecessaryOptionalChain])
  | .lit s, n, ty => by intro h; exact absurd h (by simp [findInnermostUnnecessaryOptionalChain])
  | .call f args opt, n, ty => by intro h; exact absurd h (by simp [findInnermostUnnecessaryOptionalChain])
  | .chain x, n, ty => by intro h; exact absurd h (by simp [findInnermostUnnecessaryOptionalChain])
  | .logical op l r, n, ty => by intro h; exact absurd h (by simp [findInnermostUnnecessaryOptionalChain])

/-- Characterization of every finding the `ChainExpression` visitor produces:
an optional member whose plain object passed the never-nullish check (with the
member fix text), an optional call object whose callee passed the check, or an
optional call expression (reported on the chain node) whose callee passed the
check — the latter two with the rebuilt call fix text. -/
theorem chainMemberFallback_sound (o : Oracle) (obj : Expr) (f : Finding)
    (h : f ∈ chainMemberFallback o obj) :
    ∃ callee args, obj = .call callee args true ∧
      f.node = .call callee args true ∧
      f.messageId = "unnecessaryOptionalChain" ∧
      (checkIfNeverNullish o callee).1 = true ∧
      f.typeString = (checkIfNeverNullish o callee).2 ∧
      f.fix = some (callFixText callee args) := by
  cases obj with
  | ident n => simp [chainMemberFallback] at h
  | lit s => simp [chainMemberFallback] at h
  | member a b c d => simp [chainMemberFallback] at h
  | chain x => simp [chainMemberFallback] at h
  | logical a b c => simp [chainMemberFallback] at h
  | call callee args opt =>
      cases opt with
      | false => simp [chainMemberFallback] at h
      | true =>
          rw [chainMemberFallback] at h
          by_cases hc : (checkIfNeverNullish o callee).1 = true
          · simp only [hc, if_true] at h
            rcases List.mem_singleton.1 h with rfl
            exact ⟨callee, args, rfl, rfl, rfl, hc, rfl, rfl⟩
          · simp only [hc, if_false] at h
            simp at h

theorem calleeChainResult_sound (o : Oracle) (callee m : Expr) (ty : String)
    (h : calleeChainResult o callee = some (m, ty)) :
    findInnermostUnnecessaryOptionalChain o callee = some (m, ty) := by
  cases callee with
  | ident n => simp [calleeChainResult] at h
  | lit s => simp [calleeChainResult] at h
  | call a b c => simp [calleeChainResult] at h
  | chain x => simp [calleeChainResult] at h
  | logical a b c => simp [calleeChainResult] at h
  | member mo mp mc opt =>
      cases opt with
      | false => simp [calleeChainResult] at h
      | true => exact h

/-- Characterization of every finding the `ChainExpression` visitor produces:
an optional member whose plain object passed the never-nullish check (with the
member fix text), an optional call object whose callee passed the check, or an
optional call expression (reported on the chain node) whose callee passed the
check — the latter two with the rebuilt call fix text. -/
theorem chainVisitor_sound (o : Oracle) (e : Expr) (f : Finding)
    (h : f ∈ chainVisitor o e) :
    (∃ obj prop c, f.node = .member obj prop c true ∧
       f.messageId = "unnecessaryOptionalChain" ∧ isPlainOperand obj = true ∧
       (checkIfNeverNullish o obj).1 = true ∧
       f.typeString = (checkIfNeverNullish o obj).2 ∧
       f.fix = some (memberFixText f.node)) ∨
    (∃ callee args, f.node = .call callee args true ∧
       f.messageId = "unnecessaryOptionalChain" ∧
       (checkIfNeverNullish o callee).1 = true ∧
       f.typeString = (checkIfNeverNullish o callee).2 ∧
       f.fix = some (callFixText callee args)) ∨
    (∃ callee args, f.node = .chain (.call callee args true) ∧
       f.messageId = "unnecessaryOptionalChain" ∧
       (checkIfNeverNullish o callee).1 = true ∧
       f.typeString = (checkIfNeverNullish o callee).2 ∧
       f.fix = some (callFixText callee args)) := by
  cases e with
  | ident n => simp [chainVisitor] at h
  | lit s => simp [chainVisitor] at h
  | member a b c d => simp [chainVisitor] at h
  | call a b c => simp [chainVisitor] at h
  | logical a b c => simp [chainVisitor] at h
  | chain x =>
    cases x with
    | ident n => simp [chainVisitor] at h
    | lit s => simp [chainVisitor] at h
    | chain y => simp [chainVisitor] at h
    | logical a b c => simp [chainVisitor] at h
    | member obj prop computed opt =>
      cases opt with
      | false => simp [chainVisitor] at h
      | true =>
        rcases hf : findInnermostUnnecessaryOptionalChain o (.member obj prop computed true) with
          _ | ⟨m, ty⟩
        · rw [chainVisitor, hf] at h
          obtain ⟨callee, args, _, hn, hmsg, hc, hty, hfix⟩ :=
            chainMemberFallback_sound o obj f h
          exact Or.inr (Or.inl ⟨callee, args, hn, hmsg, hc, hty, hfix⟩)
        · rw [chainVisitor, hf] at h
          rcases List.mem_singleton.1 h with rfl
          obtain ⟨obj2, prop2, c2, hn, hplain, hc, hty⟩ :=
            find_sound o (.member obj prop computed true) m ty hf
          exact Or.inl ⟨obj2, prop2, c2, hn, rfl, hplain, hc, hty, rfl⟩
    | call callee args opt =>
      cases opt with
      | false => simp [chainVisitor] at h
      | true =>
        rcases hres : calleeChainResult o callee with _ | ⟨m, ty⟩
        · rw [chainVisitor, hres] at h
          by_cases hc : (checkIfNeverNullish o callee).1 = true
          · simp only [hc, if_true] at h
            rcases List.mem_singleton.1 h with rfl
            exact Or.inr (Or.inr ⟨callee, args, rfl, rfl, hc, rfl, rfl⟩)
          · simp only [hc, if_false] at h
            simp at h
        · rw [chainVisitor, hres] at h
          rcases List.mem_singleton.1 h with rfl
          obtain ⟨obj2, prop2, c2, hn, hplain, hc, hty⟩ :=
            find_sound o callee m ty (calleeChainResult_sound o callee m ty hres)
          exact Or.inl ⟨obj2, prop2, c2, hn, rfl, hplain, hc, hty, rfl⟩

/-- Characterization of every finding the `LogicalExpression` visitor
produces: the whole `??` expression, reported when the left operand passed the
never-nullish check, with the left operand's text as the fix. -/
theorem logicalVisitor_sound (o : Oracle) (e : Expr) (f : Finding)
    (h : f ∈ logicalVisitor o e) :
    ∃ l r, e = .logical "??" l r ∧ f.node = e ∧
      f.messageId = "unnecessaryNullishCoalesce" ∧
      (checkIfNeverNullish o l).1 = true ∧
      f.typeString = (checkIfNeverNullish o l).2 ∧
      f.fix = some (printExpr l) := by
  cases e with
  | ident n => simp [logicalVisitor] at h
  | lit s => simp [logicalVisitor] at h
  | member a b c d => simp [logicalVisitor] at h
  | call a b c => simp [logicalVisitor] at h
  | chain x => simp [logicalVisitor] at h
  | logical op l r =>
    rw [logicalVisitor] at h
    by_cases hop : op = "??"
    · rw [if_pos hop] at h
      by_cases hc : (checkIfNeverNullish o l).1
      · rw [if_pos hc] at h
        rcases List.mem_singleton.1 h with rfl
        exact ⟨l, r, by rw [hop], by rw [hop], rfl, hc, rfl, rfl⟩
      · rw [if_neg hc] at h
        simp at h
    · rw [if_neg hop] at h
      simp at h

mutual
/-- Every finding of a pass arises from one of the two visitors at some node. -/
theorem mem_visit_of_mem_runPass (o : Oracle) (f : Finding) :
    ∀ e : Expr, f ∈ runPass o e →
      ∃ x, f ∈ chainVisitor o x ∨ f ∈ logicalVisitor o x
  | .ident n, h => by
      rw [runPass, visitNode] at h
      exact ⟨.ident n, List.mem_append.1 h⟩
  | .lit s, h => by
      rw [runPass, visitNode] at h
      exact ⟨.lit s, List.mem_append.1 h⟩
  | .member obj prop c opt, h => by
      rw [runPass] at h
      rcases List.mem_append.1 h with h | h
      · rcases List.mem_append.1 h with h | h
        · rw [visitNode] at h
          exact ⟨.member obj prop c opt, List.mem_append.1 h⟩
        · exact mem_visit_of_mem_runPass o f obj h
      · exact mem_visit_of_mem_runPass o f prop h
  | .call g args opt, h => by
      rw [runPass] at h
      rcases List.mem_append.1 h with h | h
      · rcases List.mem_append.1 h with h | h
        · rw [visitNode] at h
          exact ⟨.call g args opt, List.mem_append.1 h⟩
        · exact mem_visit_of_mem_runPass o f g h
      · exact mem_visit_of_mem_runPassList o f args h
  | .chain x, h => by
      rw [runPass] at h
      rcases List.mem_append.1 h with h | h
      · rw [visitNode] at h
        exact ⟨.chain x, List.mem_append.1 h⟩
      · exact mem_visit_of_mem_runPass o f x h
  | .logical op l r, h => by
      rw [runPass] at h
      rcases List.mem_append.1 h with h | h
      · rcases List.mem_append.1 h with h | h
        · rw [visitNode] at h
          exact ⟨.logical op l r, List.mem_append.1 h⟩
        · exact mem_visit_of_mem_runPass o f l h
      · exact mem_visit_of_mem_runPass o f r h

theorem mem_visit_of_mem_runPassList (o : Oracle) (f : Finding) :
    ∀ es : List Expr, f ∈ runPassList o es →
      ∃ x, f ∈ chainVisitor o x ∨ f ∈ logicalVisitor o x
  | [], h => by rw [runPassList] at h; exact absurd h (List.not_mem_nil f)
  | e :: es, h => by
      rw [runPassList] at h
      rcases List.mem_append.1 h with h | h
      · exact mem_visit_of_mem_runPass o f e h
      · exact mem_visit_of_mem_runPassList o f es h
end

/-! ## Text-replacement lemmas -/

theorem startsWithList_append_self (p r : List Char) : startsWithList p (p ++ r) = true := by
  induction p with
  | nil => rfl
  | cons c cs ih => simp [startsWithList, ih]

theorem spliceFirst_skip (pt rep : List Char) :
    ∀ (s1 s2 : List Char), ('?' : Char) ∉ s1 → startsWithList ('?' :: pt) s2 = true →
      spliceFirst ('?' :: pt) rep (s1 ++ s2) = s1 ++ rep ++ s2.drop ('?' :: pt).length := by
  intro s1
  induction s1 with
  | nil =>
      intro s2 _ h2
      cases s2 with
      | nil => simp [startsWithList] at h2
      | cons c cs => simp [spliceFirst, h2]
  | cons c s1 ih =>
      intro s2 h1 h2
      have hc : ('?' : Char) ≠ c := fun hq => h1 (hq ▸ List.mem_cons_self c s1)
      have hstart : startsWithList ('?' :: pt) (c :: (s1 ++ s2)) = false := by
        simp [startsWithList, hc]
      rw [List.cons_append, spliceFirst, hstart]
      simp only [Bool.false_eq_true, if_false]
      rw [ih s2 (fun hm => h1 (List.mem_cons_of_mem c hm)) h2]
      simp

/-- When the prefix `s` holds no question mark, replacing the first `?.` in
`s ++ "?." ++ t` rewrites exactly the displayed occurrence. -/
theorem replaceFirst_qdot (s t : String) (h : ('?' : Char) ∉ s.data) :
    replaceFirst (s ++ "?." ++ t) "?." "." = s ++ "." ++ t := by
  apply String.ext
  show spliceFirst ("?.").data (".").data (s ++ "?." ++ t).data = _
  have hd : (s ++ "?." ++ t).data = s.data ++ (['?', '.'] ++ t.data) := by
    simp [String.data_append]
  rw [hd]
  rw [show ("?.").data = ['?', '.'] from rfl, show (".").data = ['.'] from rfl]
  rw [spliceFirst_skip ['.'] ['.'] s.data (['?', '.'] ++ t.data) h
    (startsWithList_append_self ['?', '.'] t.data)]
  simp [String.data_append]

/-- When the prefix `s` holds no question mark, replacing the first `?.[` in
`s ++ "?.[" ++ t` rewrites exactly the displayed occurrence. -/
theorem replaceFirst_qbracket (s t : String) (h : ('?' : Char) ∉ s.data) :
    replaceFirst (s ++ "?.[" ++ t) "?.[" "[" = s ++ "[" ++ t := by
  apply String.ext
  show spliceFirst ("?.[").data ("[").data (s ++ "?.[" ++ t).data = _
  have hd : (s ++ "?.[" ++ t).data = s.data ++ (['?', '.', '['] ++ t.data) := by
    simp [String.data_append]
  rw [hd]
  rw [show ("?.[").data = ['?', '.', '['] from rfl, show ("[").data = ['['] from rfl]
  rw [spliceFirst_skip ['.', '['] ['['] s.data (['?', '.', '['] ++ t.data) h
    (startsWithList_append_self ['?', '.', '['] t.data)]
  simp [String.data_append]

theorem printExpr_member_noncomputed (obj prop : Expr) (opt : Bool) :
    printExpr (.member obj prop false opt) =
      printExpr obj ++ (if opt then "?." else ".") ++ printExpr prop := by
  rw [printExpr]
  simp

theorem printExpr_member_computed (obj prop : Expr) (opt : Bool) :
    printExpr (.member obj prop true opt) =
      printExpr obj ++ (if opt then "?.[" else "[") ++ printExpr prop ++ "]" := by
  rw [printExpr]
  simp

/-- On a guarded non-computed member whose object text holds no `?`, the
first-occurrence replacement rewrites the guard's own token. -/
theorem memberFixText_noncomputed (obj prop : Expr)
    (h : ('?' : Char) ∉ (printExpr obj).data) :
    memberFixText (.member obj prop false true) =
      printExpr obj ++ "." ++ printExpr prop := by
  rw [show memberFixText (.member obj prop false true) =
      replaceFirst (printExpr (.member obj prop false true)) "?." "." from rfl,
    printExpr_member_noncomputed]
  simp only [if_true]
  exact replaceFirst_qdot (printExpr obj) (printExpr prop) h

/-- On a guarded computed member whose object text holds no `?`, the
first-occurrence replacement rewrites the guard's own token sequence. -/
theorem memberFixText_computed (obj prop : Expr)
    (h : ('?' : Char) ∉ (printExpr obj).data) :
    memberFixText (.member obj prop true true) =
      printExpr obj ++ "[" ++ printExpr prop ++ "]" := by
  rw [memberFixText, printExpr_member_computed]
  simp only [if_true]
  rw [show printExpr obj ++ "?.[" ++ printExpr prop ++ "]" =
      printExpr obj ++ "?.[" ++ (printExpr prop ++ "]") by
    simp [String.append_assoc]]
  rw [replaceFirst_qbracket (printExpr obj) (printExpr prop ++ "]") h]
  simp [String.append_assoc]

/-! ## Lemmas about straight guarded chains -/

theorem isOptMember_guardedI :
    ∀ (qs : List String) (m : Expr), isOptMember m = true →
      isOptMember (guardedI m qs) = true
  | [], m, h => h
  | q :: qs, m, _ => by
      rw [guardedI]
      exact isOptMember_guardedI qs (.member m (.ident q) false true) rfl

theorem find_opt_member_any (o : Oracle) (m prop : Expr) (c : Bool)
    (h : isOptMember m = true) :
    findInnermostUnnecessaryOptionalChain o (.member m prop c true) =
      findInnermostUnnecessaryOptionalChain o m := by
  cases m with
  | member a b cc opt =>
      cases opt with
      | true => rfl
      | false => simp [isOptMember] at h
  | ident n => simp [isOptMember] at h
  | lit s => simp [isOptMember] at h
  | call f args opt => simp [isOptMember] at h
  | chain x => simp [isOptMember] at h
  | logical op l r => simp [isOptMember] at h

theorem find_guardedI (o : Oracle) :
    ∀ (qs : List String) (m : Expr), isOptMember m = true →
      findInnermostUnnecessaryOptionalChain o (guardedI m qs) =
        findInnermostUnnecessaryOptionalChain o m
  | [], m, _ => rfl
  | q :: qs, m, h => by
      rw [guardedI,
        find_guardedI o qs (.member m (.ident q) false true) rfl,
        find_opt_member_any o m (.ident q) false h]

theorem printExpr_guardedI :
    ∀ (qs : List String) (m : Expr),
      printExpr (guardedI m qs) = printExpr m ++ guardTail qs
  | [], m => by rw [guardedI, guardTail]; simp
  | q :: qs, m => by
      rw [guardedI, printExpr_guardedI qs (.member m (.ident q) false true),
        printExpr_member_noncomputed, guardTail]
      show printExpr m ++ "?." ++ printExpr (.ident q) ++ guardTail qs = _
      rw [show printExpr (.ident q) = q from rfl]
      simp [String.append_assoc]

theorem runPass_guardedI (o : Oracle) :
    ∀ (qs : List String) (m : Expr), runPass o (guardedI m qs) = runPass o m
  | [], m => rfl
  | q :: qs, m => by
      rw [guardedI, runPass_guardedI o qs (.member m (.ident q) false true),
        runPass_member_ident]

theorem optMember_shape (e : Expr) (h : isOptMember e = true) :
    ∃ a p c, e = .member a p c true := by
  cases e with
  | member a p c opt =>
      cases opt with
      | true => exact ⟨a, p, c, rfl⟩
      | false => simp [isOptMember] at h
  | ident n => simp [isOptMember] at h
  | lit s => simp [isOptMember] at h
  | call f args opt => simp [isOptMember] at h
  | chain x => simp [isOptMember] at h
  | logical op l r => simp [isOptMember] at h

theorem logicalVisitor_chain (o : Oracle) (x : Expr) :
    logicalVisitor o (.chain x) = [] := rfl

/-- On a chain of guarded links over a plain never-nullish base, the
`ChainExpression` visitor reports exactly the innermost guarded link. -/
theorem chainVisitor_scenario (o : Oracle) (b : Expr) (q : String) (qs : List String)
    (hplain : isPlainOperand b = true) (hck : (checkIfNeverNullish o b).1 = true) :
    chainVisitor o (.chain (guardedI (.member b (.ident q) false true) qs)) =
      [reportMember (.member b (.ident q) false true) (checkIfNeverNullish o b).2] := by
  obtain ⟨a, p, c, heq⟩ :=
    optMember_shape _ (isOptMember_guardedI qs (.member b (.ident q) false true) rfl)
  have hfind : findInnermostUnnecessaryOptionalChain o (.member a p c true) =
      some (.member b (.ident q) false true, (checkIfNeverNullish o b).2) := by
    rw [← heq, find_guardedI o qs _ (by rfl), find_plain o b (.ident q) false hplain,
      if_pos hck]
  rw [heq, chainVisitor, hfind]

/-- A full pass over the scenario chain reports exactly the innermost guarded
link, provided a pass over the base alone reports nothing. -/
theorem runPass_scenario (o : Oracle) (b : Expr) (q : String) (qs : List String)
    (hplain : isPlainOperand b = true) (hck : (checkIfNeverNullish o b).1 = true)
    (hbase : runPass o b = []) :
    runPass o (scenarioExpr b (q :: qs)) =
      [reportMember (.member b (.ident q) false true) (checkIfNeverNullish o b).2] := by
  rw [scenarioExpr, runPass, visitNode, logicalVisitor_chain,
    chainVisitor_scenario o b q qs hplain hck, runPass_guardedI,
    runPass_member_ident, hbase]
  simp

theorem printExpr_scenarioExpr (b : Expr) (qs : List String) :
    printExpr (scenarioExpr b qs) = printExpr b ++ guardTail qs := by
  cases qs with
  | nil => rw [scenarioExpr, guardTail]; simp
  | cons q qs =>
      rw [scenarioExpr, show printExpr (.chain (guardedI (.member b (.ident q) false true) qs)) =
          printExpr (guardedI (.member b (.ident q) false true) qs) from rfl,
        printExpr_guardedI, printExpr_member_noncomputed, guardTail]
      show printExpr b ++ "?." ++ printExpr (.ident q) ++ guardTail qs = _
      rw [show printExpr (.ident q) = q from rfl]
      simp [String.append_assoc]

theorem noq_member_plain (b : Expr) (q : String)
    (hb : ('?' : Char) ∉ (printExpr b).data) (hq : ('?' : Char) ∉ q.data) :
    ('?' : Char) ∉ (printExpr (.member b (.ident q) false false)).data := by
  rw [printExpr_member_noncomputed]
  simp only [Bool.false_eq_true, if_false]
  intro hmem
  rw [show printExpr (.ident q) = q from rfl] at hmem
  simp only [String.data_append, List.mem_append] at hmem
  rcases hmem with (hmem | hmem) | hmem
  · exact hb hmem
  · simp at hmem
  · exact hq hmem

theorem countGuards_extendPlain :
    ∀ (qs : List String) (b : Expr), countGuards (extendPlain b qs) = countGuards b
  | [], b => rfl
  | q :: qs, b => by
      rw [extendPlain, countGuards_extendPlain qs (.member b (.ident q) false false)]
      show (if false then 1 else 0) + countGuards b + countGuards (.ident q) = countGuards b
      rw [show countGuards (.ident q) = 0 from rfl]
      simp

/-- The convergence argument for a straight chain of guarded links over a
plain base: each pass reports exactly the innermost remaining guard, its
textual fix re-parses to the same chain with that guard removed (the link
turned into a plain member of the base), and after as many passes as there
are guards, a fully-plain member chain remains and a further pass reports
nothing. -/
theorem scenario_converges (o : Oracle) :
    ∀ (qs : List String) (b : Expr),
      isPlainOperand b = true → runPass o b = [] →
      ('?' : Char) ∉ (printExpr b).data →
      (∀ q ∈ qs, ('?' : Char) ∉ q.data) →
      oracleOkAlong o b qs →
      ConvergesIn o (scenarioExpr b qs) qs.length (extendPlain b qs)
  | [], b, hp, hr, hb, hq, ho => ⟨rfl, hr⟩
  | q :: qs, b, hp, hr, hb, hq, ho => by
      obtain ⟨hck, ho2⟩ := ho
      have hfix : memberFixText (.member b (.ident q) false true) =
          printExpr (.member b (.ident q) false false) := by
        rw [memberFixText_noncomputed b (.ident q) hb, printExpr_member_noncomputed]
        simp
      refine ⟨reportMember (.member b (.ident q) false true) (checkIfNeverNullish o b).2,
        printExpr (.member b (.ident q) false false), guardTail qs,
        scenarioExpr (.member b (.ident q) false false) qs,
        runPass_scenario o b q qs hp hck hr, ?_, ?_, ?_, ?_⟩
      · rw [show (reportMember (.member b (.ident q) false true)
            (checkIfNeverNullish o b).2).fix =
            some (memberFixText (.member b (.ident q) false true)) from rfl, hfix]
      · rw [printExpr_scenarioExpr, guardTail,
          show (reportMember (.member b (.ident q) false true)
            (checkIfNeverNullish o b).2).node = .member b (.ident q) false true from rfl,
          printExpr_member_noncomputed]
        show printExpr b ++ ("?." ++ q ++ guardTail qs) =
          printExpr b ++ "?." ++ printExpr (.ident q) ++ guardTail qs
        rw [show printExpr (.ident q) = q from rfl]
        simp [String.append_assoc]
      · rw [printExpr_scenarioExpr]
      · exact scenario_converges o qs (.member b (.ident q) false false) rfl
          (by rw [runPass_member_ident]; exact hr)
          (noq_member_plain b q hb (hq q (List.mem_cons_self q qs)))
          (fun p hps => hq p (List.mem_cons_of_mem q hps)) ho2

theorem intercalate_go_append (sep : String) :
    ∀ (rest : List String) (a x : String),
      String.intercalate.go (a ++ x) sep rest = a ++ String.intercalate.go x sep rest
  | [], _, _ => rfl
  | b :: bs, a, x => by
      show String.intercalate.go (a ++ x ++ sep ++ b) sep bs =
        a ++ String.intercalate.go (x ++ sep ++ b) sep bs
      rw [show a ++ x ++ sep ++ b = a ++ (x ++ sep ++ b) by simp [String.append_assoc]]
      exact intercalate_go_append sep bs a (x ++ sep ++ b)

/-- The recursive argument printer is the `', '`-join of the printed args. -/
theorem printArgs_eq_intercalate :
    ∀ args : List Expr, printArgs args = String.intercalate ", " (args.map printExpr)
  | [] => rfl
  | [_] => rfl
  | a :: b :: rest => by
      show printExpr a ++ ", " ++ printArgs (b :: rest) =
        String.intercalate.go (printExpr a) ", " (printExpr b :: rest.map printExpr)
      rw [printArgs_eq_intercalate (b :: rest)]
      show printExpr a ++ ", " ++ String.intercalate.go (printExpr b) ", " (rest.map printExpr) =
        String.intercalate.go (printExpr a ++ ", " ++ printExpr b) ", " (rest.map printExpr)
      exact (intercalate_go_append ", " (rest.map printExpr) (printExpr a ++ ", ") (printExpr b)).symm

theorem chainMemberFallback_length (o : Oracle) (obj : Expr) :
    (chainMemberFallback o obj).length ≤ 1 := by
  cases obj with
  | call callee args opt =>
      cases opt with
      | false => simp [chainMemberFallback]
      | true =>
          rw [chainMemberFallback]
          by_cases hc : (checkIfNeverNullish o callee).1 = true
          · simp [hc]
          · simp [hc]
  | ident n => simp [chainMemberFallback]
  | lit s => simp [chainMemberFallback]
  | member a b c d => simp [chainMemberFallback]
  | chain x => simp [chainMemberFallback]
  | logical a b c => simp [chainMemberFallback]

/-- The `ChainExpression` visitor reports at most one finding per chain node. -/
theorem chainVisitor_length_le_one (o : Oracle) (e : Expr) :
    (chainVisitor o e).length ≤ 1 := by
  cases e with
  | chain x =>
      cases x with
      | member obj prop c opt =>
          cases opt with
          | false => simp [chainVisitor]
          | true =>
              rcases hf : findInnermostUnnecessaryOptionalChain o (.member obj prop c true) with
                _ | ⟨m, ty⟩
              · rw [chainVisitor, hf]
                exact chainMemberFallback_length o obj
              · rw [chainVisitor, hf]
                simp
      | call callee args opt =>
          cases opt with
          | false => simp [chainVisitor]
          | true =>
              rcases hres : calleeChainResult o callee with _ | ⟨m, ty⟩
              · rw [chainVisitor, hres]
                by_cases hc : (checkIfNeverNullish o callee).1 = true
                · simp [hc]
                · simp [hc]
              · rw [chainVisitor, hres]
                simp
      | ident n => simp [chainVisitor]
      | lit s => simp [chainVisitor]
      | chain y => simp [chainVisitor]
      | logical a b c => simp [chainVisitor]
  | ident n => simp [chainVisitor]
  | lit s => simp [chainVisitor]
  | member a b c d => simp [chainVisitor]
  | call a b c => simp [chainVisitor]
  | logical a b c => simp [chainVisitor]

theorem countGuards_guardedI :
    ∀ (qs : List String) (m : Expr),
      countGuards (guardedI m qs) = countGuards m + qs.length
  | [], m => rfl
  | q :: qs, m => by
      rw [guardedI, countGuards_guardedI qs (.member m (.ident q) false true)]
      show 1 + countGuards m + 0 + qs.length = countGuards m + (qs.length + 1)
      omega

theorem countGuards_scenarioExpr (b : Expr) (q : String) (qs : List String) :
    countGuards (scenarioExpr b (q :: qs)) = countGuards b + qs.length + 1 := by
  rw [scenarioExpr, show countGuards (.chain (guardedI (.member b (.ident q) false true) qs)) =
      countGuards (guardedI (.member b (.ident q) false true) qs) from rfl,
    countGuards_guardedI]
  show 1 + countGuards b + 0 + qs.length = countGuards b + qs.length + 1
  omega

/-! ## Shared result lemmas used by the claim theorems -/

theorem logicalVisitor_coalesce (o : Oracle) (l r : Expr) :
    logicalVisitor o (.logical "??" l r) =
      (if isNullish (o (unwrapChain l)) then []
       else [{ node := .logical "??" l r, messageId := "unnecessaryNullishCoalesce",
               typeString := typeToString (o (unwrapChain l)),
               fix := some (printExpr l) }]) := by
  cases hn : isNullish (o (unwrapChain l)) <;>
    simp [logicalVisitor, checkIfNeverNullish, hn]

theorem isNullish_false_of_check (o : Oracle) (e : Expr)
    (hc : (checkIfNeverNullish o e).1 = true) :
    isNullish (o (unwrapChain e)) = false := by
  rw [checkIfNeverNullish_fst] at hc
  cases hn : isNullish (o (unwrapChain e)) with
  | false => rfl
  | true => rw [hn] at hc; simp at hc

/-- Every finding of a pass whose reported node carries a guard has a guard
operand that the checker judged never nullish. -/
theorem runPass_guard_sound (o : Oracle) (root : Expr) (f : Finding) (opnd : Expr)
    (hmem : f ∈ runPass o root) (hop : guardOperand f.node = some opnd) :
    isNullish (o (unwrapChain opnd)) = false := by
  obtain ⟨x, hx | hx⟩ := mem_visit_of_mem_runPass o f root hmem
  · rcases chainVisitor_sound o x f hx with
      ⟨obj, prop, c, hn, _, _, hc, _, _⟩ | ⟨callee, args, hn, _, hc, _, _⟩ |
      ⟨callee, args, hn, _, hc, _, _⟩
    · rw [hn] at hop
      rw [show guardOperand (.member obj prop c true) = some obj from rfl] at hop
      rcases Option.some.injEq .. ▸ hop with rfl
      exact isNullish_false_of_check o obj hc
    · rw [hn] at hop
      rw [show guardOperand (.call callee args true) = some callee from rfl] at hop
      rcases Option.some.injEq .. ▸ hop with rfl
      exact isNullish_false_of_check o callee hc
    · rw [hn] at hop
      rw [show guardOperand (.chain (.call callee args true)) = some callee from rfl] at hop
      rcases Option.some.injEq .. ▸ hop with rfl
      exact isNullish_false_of_check o callee hc
  · obtain ⟨l, r, hxeq, hn, _, _, _, _⟩ := logicalVisitor_sound o x f hx
    rw [hn, hxeq] at hop
    simp [guardOperand] at hop

/-! ## Claim theorems -/

/-- C1: `isNullish` returns true exactly when the type's flags include
`Any`/`Unknown` or `Null`/`Undefined`, or the type is a union with a nullish
member; consequently no finding is ever produced for a guard whose operand's
inferred type is possibly nullish (includes null, undefined, any or unknown). -/
theorem claim_C1 :
    (isNullish .any = true ∧ isNullish .unknown = true ∧
     isNullish .null = true ∧ isNullish .undefined = true) ∧
    (∀ ts : List TsType, isNullish (.union ts) = ts.any (fun t => isNullish t)) ∧
    (∀ ts : List TsType, isNullish (.union ts) = true ↔ ∃ t ∈ ts, isNullish t = true) ∧
    (∀ s : String, isNullish (.other s) = false) ∧
    (∀ (o : Oracle) (root : Expr) (f : Finding) (opnd : Expr),
      f ∈ runPass o root → guardOperand f.node = some opnd →
      isNullish (o (unwrapChain opnd)) = false) := by
  refine ⟨⟨rfl, rfl, rfl, rfl⟩, ?_, ?_, fun s => rfl, runPass_guard_sound⟩
  · intro ts
    rw [show isNullish (.union ts) = anyNullish ts from rfl]
    exact anyNullish_eq_any ts
  · intro ts
    rw [show isNullish (.union ts) = anyNullish ts from rfl, anyNullish_eq_any ts]
    exact List.any_eq_true

/-- C4: when a guarded member's operand is itself a guarded member, the walker
returns exactly the result of the recursive search on that operand — the inner
finding if one exists, and nothing at all otherwise (the current link is left
unevaluated for a later pass). -/
theorem claim_C4 (o : Oracle) (o2 p2 : Expr) (c2 : Bool) (prop : Expr) (c : Bool) :
    findInnermostUnnecessaryOptionalChain o (.member (.member o2 p2 c2 true) prop c true) =
      findInnermostUnnecessaryOptionalChain o (.member o2 p2 c2 true) :=
  find_opt_member o o2 p2 c2 prop c

/-- C6: for `left ?? right` the rule queries the checker on `left` only and
reports the whole expression iff `left` is never nullish, with the left
operand's own text as the whole-span replacement; the right operand affects
neither the decision nor the replacement. -/
theorem claim_C6 :
    (∀ (o : Oracle) (l r : Expr),
      logicalVisitor o (.logical "??" l r) =
        (if isNullish (o (unwrapChain l)) then []
         else [{ node := .logical "??" l r, messageId := "unnecessaryNullishCoalesce",
                 typeString := typeToString (o (unwrapChain l)),
                 fix := some (printExpr l) }])) ∧
    (∀ (o : Oracle) (l r r2 : Expr),
      (logicalVisitor o (.logical "??" l r)).map
          (fun f => (f.messageId, f.typeString, f.fix)) =
        (logicalVisitor o (.logical "??" l r2)).map
          (fun f => (f.messageId, f.typeString, f.fix))) := by
  refine ⟨logicalVisitor_coalesce, ?_⟩
  intro o l r r2
  rw [logicalVisitor_coalesce, logicalVisitor_coalesce]
  cases isNullish (o (unwrapChain l)) <;> simp

/-- C9: for a guarded call whose callee is a guarded member chain, the callee's
chain is searched first with the same walker and its finding (if any) is the
one reported; only when that search is empty is the callee itself checked, and
only then is the call (as the chain node) reported. -/
theorem claim_C9 (o : Oracle) (mo mp : Expr) (mc : Bool) (args : List Expr) :
    chainVisitor o (.chain (.call (.member mo mp mc true) args true)) =
      (match findInnermostUnnecessaryOptionalChain o (.member mo mp mc true) with
       | some (m, ty) => [reportMember m ty]
       | none =>
           if (checkIfNeverNullish o (.member mo mp mc true)).1 then
             [{ node := .chain (.call (.member mo mp mc true) args true),
                messageId := "unnecessaryOptionalChain",
                typeString := (checkIfNeverNullish o (.member mo mp mc true)).2,
                fix := some (callFixText (.member mo mp mc true) args) }]
           else []) := rfl

/-- C10: a chain whose outermost member access or call does not itself carry
the optional flag is never reported by the `ChainExpression` visitor, whatever
the checker answers for the inner links' operands. -/
theorem claim_C10 (o : Oracle) (obj prop : Expr) (c : Bool)
    (callee : Expr) (args : List Expr) :
    chainVisitor o (.chain (.member obj prop c false)) = [] ∧
    chainVisitor o (.chain (.call callee args false)) = [] :=
  ⟨rfl, rfl⟩

theorem runPass_messageId (o : Oracle) (e : Expr) (f : Finding)
    (h : f ∈ runPass o e) :
    f.messageId = "unnecessaryOptionalChain" ∨
    f.messageId = "unnecessaryNullishCoalesce" := by
  obtain ⟨x, hx | hx⟩ := mem_visit_of_mem_runPass o f e h
  · rcases chainVisitor_sound o x f hx with
      ⟨_, _, _, _, hm, _, _, _, _⟩ | ⟨_, _, _, hm, _, _, _⟩ | ⟨_, _, _, hm, _, _, _⟩ <;>
      exact Or.inl hm
  · obtain ⟨_, _, _, _, hm, _, _, _⟩ := logicalVisitor_sound o x f hx
    exact Or.inr hm

/-- C2: with no type-inference session, or with strict null checking disabled,
`create` reports exactly one `requiresStrictNullChecks` diagnostic at line 1
column 0 and registers no visitors; when the precondition holds it reports
nothing at create time and registers the visitors, and no pass finding ever
carries the `requiresStrictNullChecks` message. -/
theorem claim_C2 :
    (create none = ([⟨1, 0, "requiresStrictNullChecks"⟩], false)) ∧
    (∀ opts : CompilerOptions, hasStrictNullChecks opts = false →
      create (some opts) = ([⟨1, 0, "requiresStrictNullChecks"⟩], false)) ∧
    (∀ opts : CompilerOptions, hasStrictNullChecks opts = true →
      create (some opts) = ([], true)) ∧
    (∀ (o : Oracle) (e : Expr) (f : Finding), f ∈ runPass o e →
      f.messageId ≠ "requiresStrictNullChecks") := by
  refine ⟨rfl, ?_, ?_, ?_⟩
  · intro opts h
    simp [create, h]
  · intro opts h
    simp [create, h]
  · intro o e f h
    rcases runPass_messageId o e f h with hm | hm <;> rw [hm] <;> decide

/-- The oracle for the coalesce witness example: `s` is a plain string. -/
def oracleW2 : Oracle
  | .ident "s" => .other "string"
  | _ => .any

/-- `s ?? '0'` with `s : string`. -/
def exprW2 : Expr := .logical "??" (.ident "s") (.lit "'0'")

def findingW2 : Finding :=
  { node := exprW2, messageId := "unnecessaryNullishCoalesce",
    typeString := "string", fix := some "s" }

theorem claim_C2_witness :
    (hasStrictNullChecks ⟨some false, none⟩ = false ∧
     create (some ⟨some false, none⟩) = ([⟨1, 0, "requiresStrictNullChecks"⟩], false)) ∧
    (findingW2 ∈ runPass oracleW2 exprW2 ∧
     findingW2.messageId ≠ "requiresStrictNullChecks") := by
  have hmem : findingW2 ∈ runPass oracleW2 exprW2 := by
    rw [show runPass oracleW2 exprW2 = [findingW2] from rfl]
    exact List.mem_singleton_self _
  exact ⟨⟨rfl, claim_C2.2.1 ⟨some false, none⟩ rfl⟩,
    ⟨hmem, claim_C2.2.2.2 oracleW2 exprW2 findingW2 hmem⟩⟩

/-- C8: every reported guarded call is fixed by re-emitting the callee's text
followed by the parenthesized `', '`-joined argument texts. -/
theorem claim_C8 (o : Oracle) (root : Expr) (f : Finding)
    (callee : Expr) (args : List Expr)
    (hmem : f ∈ runPass o root)
    (hshape : f.node = .call callee args true ∨ f.node = .chain (.call callee args true)) :
    f.fix = some (printExpr callee ++ "(" ++
      String.intercalate ", " (args.map printExpr) ++ ")") := by
  have hfe : callFixText callee args = printExpr callee ++ "(" ++
      String.intercalate ", " (args.map printExpr) ++ ")" := by
    rw [callFixText, printArgs_eq_intercalate]
  obtain ⟨x, hx | hx⟩ := mem_visit_of_mem_runPass o f root hmem
  · rcases chainVisitor_sound o x f hx with
      ⟨obj, prop, c, hn, _, _, _, _, _⟩ | ⟨callee2, args2, hn, _, _, _, hfix⟩ |
      ⟨callee2, args2, hn, _, _, _, hfix⟩
    · rcases hshape with hs | hs <;> rw [hn] at hs <;> exact absurd hs (by simp)
    · rcases hshape with hs | hs
      · have h := hn.symm.trans hs
        injection h with h1 h2 h3
        subst h1; subst h2
        rw [hfix, hfe]
      · have h := hn.symm.trans hs
        exact absurd h (by simp)
    · rcases hshape with hs | hs
      · have h := hn.symm.trans hs
        exact absurd h (by simp)
      · have h := hn.symm.trans hs
        have h2 := Expr.chain.inj h
        injection h2 with h1 h2 h3
        subst h1; subst h2
        rw [hfix, hfe]
  · obtain ⟨l, r, hxeq, hn, _, _, _, _⟩ := logicalVisitor_sound o x f hx
    rcases hshape with hs | hs <;> rw [hn, hxeq] at hs <;> exact absurd hs (by simp)

/-- The oracle for the guarded-call witness example: `fn` is a function. -/
def oracleW8 : Oracle
  | .ident "fn" => .other "F"
  | _ => .any

/-- `fn?.()`. -/
def exprW8 : Expr := .chain (.call (.ident "fn") [] true)

def findingW8 : Finding :=
  { node := exprW8, messageId := "unnecessaryOptionalChain",
    typeString := "F", fix := some "fn()" }

theorem claim_C8_witness :
    (findingW8 ∈ runPass oracleW8 exprW8 ∧
     (findingW8.node = .call (.ident "fn") [] true ∨
      findingW8.node = .chain (.call (.ident "fn") [] true))) ∧
    findingW8.fix = some (printExpr (.ident "fn") ++ "(" ++
      String.intercalate ", " (([] : List Expr).map printExpr) ++ ")") := by
  have hmem : findingW8 ∈ runPass oracleW8 exprW8 := by
    rw [show runPass oracleW8 exprW8 = [findingW8] from rfl]
    exact List.mem_singleton_self _
  exact ⟨⟨hmem, Or.inr rfl⟩,
    claim_C8 oracleW8 exprW8 findingW8 (.ident "fn") [] hmem (Or.inr rfl)⟩

/-- The oracle for the C7 counterexample: the sub-chain `a?.b.c` is typed as
the non-nullish `C`; everything else is `any`. -/
def oracleC7 : Oracle
  | .member (.member (.ident "a") (.ident "b") _ _) (.ident "c") _ _ => .other "C"
  | _ => .any

/-- The object of the reported link in the counterexample: `a?.b.c`. -/
def objC7 : Expr :=
  .member (.member (.ident "a") (.ident "b") false true) (.ident "c") false false

/-- The reported node of the counterexample: the whole member `a?.b.c?.d`. -/
def nodeC7 : Expr := .member objC7 (.ident "d") false true

/-- The visited chain of the counterexample: `a?.b.c?.d`. -/
def exprC7 : Expr := .chain nodeC7

/-- C7 counterexample: in `a?.b.c?.d` with `a?.b.c` typed never-nullish, the
visitor reports the guarded member `a?.b.c?.d` (the `?.d` guard), but the fix
replaces the *first* `?.` of the node's text — the `a?.b` token — producing
`a.b.c?.d` instead of the claimed guard-token rewrite `a?.b.c.d`. -/
theorem claim_C7_counterexample :
    runPass oracleC7 exprC7 = [reportMember nodeC7 "C"] ∧
    (reportMember nodeC7 "C").node = .member objC7 (.ident "d") false true ∧
    printExpr nodeC7 = "a?.b.c?.d" ∧
    (reportMember nodeC7 "C").fix = some "a.b.c?.d" ∧
    printExpr objC7 ++ "." ++ printExpr (.ident "d") = "a?.b.c.d" ∧
    (reportMember nodeC7 "C").fix ≠
      some (printExpr objC7 ++ "." ++ printExpr (.ident "d")) := by
  refine ⟨rfl, rfl, rfl, rfl, rfl, ?_⟩
  decide

/-- C7 (amended): every reported guarded member access is fixed within its own
node's span by replacing the first occurrence of `?.` (of `?.[` when computed)
in the node's source text; whenever the object's text holds no `?` character,
that first occurrence is the guard's own token, so the fix then equals the
node's text with the guard's token rewritten. -/
theorem claim_C7 (o : Oracle) (root : Expr) (f : Finding)
    (obj prop : Expr) (c : Bool)
    (hmem : f ∈ runPass o root) (hn : f.node = .member obj prop c true) :
    f.fix = some (memberFixText (.member obj prop c true)) ∧
    (('?' : Char) ∉ (printExpr obj).data →
      f.fix = some (printExpr obj ++ (if c then "[" else ".") ++ printExpr prop ++
        (if c then "]" else ""))) := by
  have hfix : f.fix = some (memberFixText (.member obj prop c true)) := by
    obtain ⟨x, hx | hx⟩ := mem_visit_of_mem_runPass o f root hmem
    · rcases chainVisitor_sound o x f hx with
        ⟨obj2, prop2, c2, hn2, _, _, _, _, hfix⟩ | ⟨callee2, args2, hn2, _, _, _, _⟩ |
        ⟨callee2, args2, hn2, _, _, _, _⟩
      · rw [hn] at hfix hn2
        rw [hfix, hn2]
      · exact absurd (hn2.symm.trans hn) (by simp)
      · exact absurd (hn2.symm.trans hn) (by simp)
    · obtain ⟨l, r, hxeq, hn2, _, _, _, _⟩ := logicalVisitor_sound o x f hx
      rw [hxeq] at hn2
      exact absurd (hn2.symm.trans hn) (by simp)
  refine ⟨hfix, fun hq => ?_⟩
  cases c with
  | false =>
      rw [hfix, memberFixText_noncomputed obj prop hq]
      simp
  | true =>
      rw [hfix, memberFixText_computed obj prop hq]
      simp

/-- The oracle for the C7 witness: `w` is a plain non-nullish object. -/
def oracleW7 : Oracle
  | .ident "w" => .other "W"
  | _ => .any

/-- The reported node of the witness: `w?.p`. -/
def nodeW7 : Expr := .member (.ident "w") (.ident "p") false true

theorem claim_C7_witness :
    (reportMember nodeW7 "W" ∈ runPass oracleW7 (.chain nodeW7) ∧
     (reportMember nodeW7 "W").node = .member (.ident "w") (.ident "p") false true ∧
     ('?' : Char) ∉ (printExpr (.ident "w")).data) ∧
    ((reportMember nodeW7 "W").fix = some (memberFixText nodeW7) ∧
     (reportMember nodeW7 "W").fix =
       some (printExpr (.ident "w") ++ "." ++ printExpr (.ident "p") ++ "")) := by
  have hmem : reportMember nodeW7 "W" ∈ runPass oracleW7 (.chain nodeW7) := by
    rw [show runPass oracleW7 (.chain nodeW7) = [reportMember nodeW7 "W"] from rfl]
    exact List.mem_singleton_self _
  have h := claim_C7 oracleW7 (.chain nodeW7) (reportMember nodeW7 "W")
    (.ident "w") (.ident "p") false hmem rfl
  exact ⟨⟨hmem, rfl, by decide⟩, ⟨h.1, h.2 (by decide)⟩⟩

/-- The oracle of the `obj?.nested?.value` scenario: `obj` is a plain
non-nullish `Obj`, `obj.nested` (guarded or not) a plain non-nullish
`Nested`; everything else is `any`. -/
def oracleC5 : Oracle
  | .ident "obj" => .other "Obj"
  | .member (.ident "obj") (.ident "nested") false _ => .other "Nested"
  | _ => .any

/-- The innermost guarded link of pass 1: `obj?.nested`. -/
def innerC5 : Expr := .member (.ident "obj") (.ident "nested") false true

/-- Pass 1 input: the chain `obj?.nested?.value`. -/
def exprC5a : Expr := .chain (.member innerC5 (.ident "value") false true)

/-- The reported link of pass 2: `obj.nested?.value`, the whole member. -/
def outerC5 : Expr :=
  .member (.member (.ident "obj") (.ident "nested") false false) (.ident "value") false true

/-- Pass 2 input: the chain `obj.nested?.value`. -/
def exprC5b : Expr := .chain outerC5

/-- Pass 3 input: the plain member `obj.nested.value` (no guard remains, so no
chain wrapper remains after re-parsing). -/
def exprC5c : Expr :=
  .member (.member (.ident "obj") (.ident "nested") false false) (.ident "value") false false

/-- C5: for `obj?.nested?.value` with `obj` and `obj.nested` never-nullish,
pass 1 reports the guard on `obj?.nested` (operand the plain base) and its fix
spliced at that node's span yields `obj.nested?.value`; pass 2 reports and
fixes `nested?.value`, yielding `obj.nested.value`; a third pass reports
nothing. -/
theorem claim_C5 :
    printExpr exprC5a = "obj?.nested?.value" ∧
    runPass oracleC5 exprC5a = [reportMember innerC5 "Obj"] ∧
    printExpr innerC5 = "obj?.nested" ∧
    (reportMember innerC5 "Obj").fix = some "obj.nested" ∧
    printExpr exprC5a = printExpr innerC5 ++ "?.value" ∧
    "obj.nested" ++ "?.value" = printExpr exprC5b ∧
    printExpr exprC5b = "obj.nested?.value" ∧
    runPass oracleC5 exprC5b = [reportMember outerC5 "Nested"] ∧
    printExpr outerC5 = printExpr exprC5b ∧
    (reportMember outerC5 "Nested").fix = some "obj.nested.value" ∧
    "obj.nested.value" = printExpr exprC5c ∧
    runPass oracleC5 exprC5c = [] ∧
    countGuards exprC5c = 0 :=
  ⟨rfl, rfl, rfl, rfl, rfl, rfl, rfl, rfl, rfl, rfl, rfl, rfl, rfl⟩

/-- C3: (at most one) every visited chain node yields at most one finding per
pass; and (the all-redundant scenario) a straight chain of `N` guarded links
over a plain never-nullish base yields exactly one finding — the innermost
guarded link — whose span-confined textual fix re-parses to the chain with
that guard removed, and `N` such passes converge to the guard-free plain
member chain, on which a further pass reports nothing. -/
theorem claim_C3 :
    (∀ (o : Oracle) (e : Expr), (chainVisitor o e).length ≤ 1) ∧
    (∀ (o : Oracle) (b : Expr) (q : String) (qs : List String),
      isPlainOperand b = true → runPass o b = [] →
      ('?' : Char) ∉ (printExpr b).data →
      (∀ p ∈ q :: qs, ('?' : Char) ∉ p.data) →
      countGuards b = 0 →
      oracleOkAlong o b (q :: qs) →
      countGuards (scenarioExpr b (q :: qs)) = (q :: qs).length ∧
      runPass o (scenarioExpr b (q :: qs)) =
        [reportMember (.member b (.ident q) false true) (checkIfNeverNullish o b).2] ∧
      ConvergesIn o (scenarioExpr b (q :: qs)) (q :: qs).length (extendPlain b (q :: qs)) ∧
      countGuards (extendPlain b (q :: qs)) = 0) := by
  refine ⟨chainVisitor_length_le_one, ?_⟩
  intro o b q qs hplain hbase hb hq hg ho
  refine ⟨?_, ?_, ?_, ?_⟩
  · rw [countGuards_scenarioExpr, hg]
    simp
  · exact runPass_scenario o b q qs hplain ho.1 hbase
  · exact scenario_converges o (q :: qs) b hplain hbase hb hq ho
  · rw [countGuards_extendPlain, hg]

/-- The oracle of the C3 witness: base `r` and its extension `r.s` are plain
non-nullish; everything else is `any`. -/
def oracleW3 : Oracle
  | .ident "r" => .other "R"
  | .member (.ident "r") (.ident "s") false false => .other "S"
  | _ => .any

theorem claim_C3_witness :
    (isPlainOperand (.ident "r") = true ∧
     runPass oracleW3 (.ident "r") = [] ∧
     ('?' : Char) ∉ (printExpr (.ident "r")).data ∧
     (∀ p ∈ ["s", "t"], ('?' : Char) ∉ p.data) ∧
     countGuards (.ident "r") = 0 ∧
     oracleOkAlong oracleW3 (.ident "r") ["s", "t"]) ∧
    (countGuards (scenarioExpr (.ident "r") ["s", "t"]) = 2 ∧
     runPass oracleW3 (scenarioExpr (.ident "r") ["s", "t"]) =
       [reportMember (.member (.ident "r") (.ident "s") false true)
         (checkIfNeverNullish oracleW3 (.ident "r")).2] ∧
     ConvergesIn oracleW3 (scenarioExpr (.ident "r") ["s", "t"]) 2
       (extendPlain (.ident "r") ["s", "t"]) ∧
     countGuards (extendPlain (.ident "r") ["s", "t"]) = 0) := by
  have ho : oracleOkAlong oracleW3 (.ident "r") ["s", "t"] := ⟨rfl, rfl, trivial⟩
  have h := claim_C3.2 oracleW3 (.ident "r") "s" ["t"]
    (by decide) rfl (by decide) (by decide) rfl ho
  exact ⟨⟨by decide, rfl, by decide, by decide, rfl, ho⟩, h⟩

/-- The oracle of the C1 witness: `v` is a plain non-nullish `V`. -/
def oracleW1 : Oracle
  | .ident "v" => .other "V"
  | _ => .any

/-- The reported node of the C1 witness: `v?.p`. -/
def nodeW1 : Expr := .member (.ident "v") (.ident "p") false true

theorem claim_C1_witness :
    (reportMember nodeW1 "V" ∈ runPass oracleW1 (.chain nodeW1) ∧
     guardOperand (reportMember nodeW1 "V").node = some (.ident "v")) ∧
    isNullish (oracleW1 (unwrapChain (.ident "v"))) = false := by
  have hmem : reportMember nodeW1 "V" ∈ runPass oracleW1 (.chain nodeW1) := by
    rw [show runPass oracleW1 (.chain nodeW1) = [reportMember nodeW1 "V"] from rfl]
    exact List.mem_singleton_self _
  exact ⟨⟨hmem, rfl⟩,
    claim_C1.2.2.2.2 oracleW1 (.chain nodeW1) (reportMember nodeW1 "V") (.ident "v") hmem rfl⟩
